import Mathlib

/-!
Verification of the query-to-subalignment assignment core of SALMA
(src/loader.py): `obtainHMMs`, `getHMMSearchResults` and
`assignQueryToSubset`, together with the filesystem artifacts they read.

The filesystem is modelled as a value of type `FileSys`: the list of
descriptor files that the `find` call enumerates, the tokenized header
lines that `head -n 15` plus `str.split` produce for each descriptor,
the line count that `wc -l` reports for a subset alignment file (absent
when the file does not exist), the search-result files that `find`
enumerates under a model directory, and the mapping that `eval` yields
for each search-result file.  Bit-scores are modelled as rationals,
indices as integers, line counts as naturals.  Python string splitting
and integer parsing are reimplemented over character lists so that all
definitions evaluate inside the kernel.
-/

/-- Split a character list at every occurrence of the separator, keeping
empty fragments, exactly like the Python `str.split(sep)` with a one
character separator: `splitOnChar c "" = [""]`, separators at the ends
produce empty fragments. -/
def splitOnChar (c : Char) : List Char → List (List Char)
  | [] => [[]]
  | x :: xs =>
    match splitOnChar c xs with
    | [] => [[x]]
    | t :: ts => if x = c then [] :: t :: ts else (x :: t) :: ts

/-- Value of a decimal digit character. -/
def digitVal (c : Char) : Option Nat :=
  if c = '0' then some 0 else if c = '1' then some 1 else if c = '2' then some 2
  else if c = '3' then some 3 else if c = '4' then some 4 else if c = '5' then some 5
  else if c = '6' then some 6 else if c = '7' then some 7 else if c = '8' then some 8
  else if c = '9' then some 9 else none

/-- Parse a nonempty run of decimal digits. -/
def digitsToNat : List Char → Option Nat
  | [] => none
  | [c] => digitVal c
  | c :: cs =>
    match digitVal c, digitsToNat cs with
    | some d, some n => some (d * 10 ^ cs.length + n)
    | _, _ => none

/-- The Python `int(...)` conversion as it is applied to the integer
tokens of the artifacts: an optional minus sign followed by decimal
digits; anything else raises `ValueError`, modelled as `none`. -/
def charsToInt (l : List Char) : Option Int :=
  match l with
  | '-' :: rest => (digitsToNat rest).map (fun n => -(n : Int))
  | _ => (digitsToNat l).map (fun n => (n : Int))

/-- `str.split(sep)` for strings. -/
def splitStr (c : Char) (s : String) : List String :=
  (splitOnChar c s.data).map String.mk

/-- `int(s)` for strings. -/
def strToInt (s : String) : Option Int :=
  charsToInt s.data

/-- `os.path.dirname(path)`: everything before the final slash. -/
def dirnameOf (p : String) : String :=
  String.intercalate "/" ((splitStr '/' p).dropLast)

/-- `dirname.split('/')[-1]`: the basename of the directory containing
the descriptor; `str.split` always returns a nonempty list, so the
default of `getLastD` is never used. -/
def basenameOf (p : String) : String :=
  (splitStr '/' (dirnameOf p)).getLastD ""

/-- `os.path.join('/'.join(dirname.split('/')[:-1]), 'subset.aln.fasta')`:
the path of the subset alignment file one directory level above the
directory of the descriptor. -/
def subalnPath (p : String) : String :=
  let parent := String.intercalate "/" ((splitStr '/' (dirnameOf p)).dropLast)
  if parent = "" then "subset.aln.fasta" else parent ++ "/subset.aln.fasta"

/-- `alignment_ind, hmm_ind = (int(x) for x in index.split('_')[1:])`:
drop the first underscore token of the basename, require exactly two
further tokens, both integer literals.  Any other shape raises
`ValueError` in the source, modelled as `none`. -/
def indexPairOf (p : String) : Option (Int × Int) :=
  match (splitStr '_' (basenameOf p)).drop 1 with
  | [sa, sh] =>
    match strToInt sa, strToInt sh with
    | some a, some b => some (a, b)
    | _, _ => none
  | _ => none

/-- Insert into a Python dict modelled as an association list: overwrite
the value at the first matching key in place, otherwise append a new
binding at the end (Python dicts keep first-insertion order). -/
def dictInsert {β : Type} : List (String × β) → String → β → List (String × β)
  | [], k, v => [(k, v)]
  | p :: ps, k, v => if p.1 = k then (k, v) :: ps else p :: dictInsert ps k v

/-- Key lookup in a Python dict modelled as an association list. -/
def dictLookup {β : Type} : List (String × β) → String → Option β
  | [], _ => none
  | p :: ps, k => if p.1 = k then some p.2 else dictLookup ps k

/-- `{x[0]: ','.join(x[1:]) for x in split_lines}`: build the header
dictionary from the tokenized header lines; an empty token line makes
`x[0]` raise `IndexError`, modelled as `none`. -/
def headerDict (lines : List (List String)) : Option (List (String × String)) :=
  lines.foldl
    (fun acc tokens =>
      match acc, tokens with
      | none, _ => none
      | some _, [] => none
      | some d, k :: rest => some (dictInsert d k (String.intercalate "," rest)))
    (some [])

/-- One entry of the sorted catalog list `hmm_indexes`:
`(alignment_ind, subalignment_size, hmm_ind, num_seq)`. -/
abbrev HmmTuple := Int × Nat × Int × Int

/-- One value of the mapping `index_to_hmms`:
`(dirname, alignment_ind, hmm_ind, num_seq)`. -/
abbrev HmmVal := String × Int × Int × Int

/-- The mapping `index_to_hmms`, keyed by the basename string. -/
abbrev IndexMap := List (String × HmmVal)

/-- One scored match `(alignment_ind, hmm_ind, bit_score)` as appended
by `getHMMSearchResults`. -/
abbrev Score := Int × Int × ℚ

/-- The mapping `scores` from taxon name to its list of scored matches. -/
abbrev Scores := List (String × List Score)

/-- The mapping `query_assignment` from alignment subproblem index to
the list of taxa assigned to it. -/
abbrev Assignment := List (Int × List String)

/-- The filesystem tree of artifacts as observed by loader.py.
`hmmbuildFiles` is the list of descriptor paths (either the supplied
`hmmbuild_paths` argument or the result of the `find` call);
`fileHeader` gives the whitespace-tokenized first fifteen lines of a
descriptor; `subsetAlnLines` gives the `wc -l` line count of a file, or
`none` when the file does not exist; `hmmsearchFiles` lists the
`hmmsearch.results.*` files found under a model directory;
`searchContent` gives the mapping obtained by `eval` on a search-result
file, each value being a tuple whose element at position one is the
bit-score. -/
structure FileSys where
  hmmbuildFiles : List String
  fileHeader : String → List (List String)
  subsetAlnLines : String → Option Nat
  hmmsearchFiles : String → List String
  searchContent : String → List (String × (ℚ × ℚ))

/-- The fatal exceptions loader.py can raise: the `IndexError` while
building the header dictionary, the failed `assert` on a missing NSEQ
key, the `ValueError` of `int` on a malformed NSEQ value, the failed
`assert` on a missing subset alignment file, the `ValueError` while
unpacking the directory basename, and the `IndexError` on an empty
score list in `assignQueryToSubset`. -/
inductive LoaderErr where
  | headerLine (p : String)
  | missingNSEQ (p : String)
  | badNSEQ (p : String) (s : String)
  | missingSubaln (p : String)
  | badDirname (s : String)
  | indexError

/-- The training sequence count of a descriptor: the NSEQ header value
parsed as an integer, when all of that succeeds. -/
def nseqOf (fs : FileSys) (p : String) : Option Int :=
  ((headerDict (fs.fileHeader p)).bind (fun d => dictLookup d "NSEQ")).bind strToInt

/-- The inclusion test of `obtainHMMs` for one descriptor:
`(num_seq <= upper and num_seq >= lower) or len(hmmbuild_paths) == 1`,
with `total` the number of descriptor files being processed.  A
descriptor whose NSEQ cannot be parsed never reaches the test. -/
def includedB (fs : FileSys) (lower upper : Int) (total : Nat) (p : String) : Bool :=
  match nseqOf fs p with
  | some n => decide ((n ≤ upper ∧ lower ≤ n) ∨ total = 1)
  | none => false

/-- The catalog tuple contributed by an included descriptor, written as
a total function of the filesystem; on descriptors that a successful
run includes, every `Option` below is `some` and the defaults are never
used. -/
def catalogEntry (fs : FileSys) (p : String) : HmmTuple :=
  let n := (nseqOf fs p).getD 0
  let lc := (fs.subsetAlnLines (subalnPath p)).getD 0
  let pr := (indexPairOf p).getD (0, 0)
  (pr.1, lc / 2, pr.2, n)

/-- The body of the main loop of `obtainHMMs` for one descriptor path:
parse the header, assert NSEQ, parse it, apply the inclusion test, and
for an included descriptor assert the subset alignment file, compute
its size as half the line count, parse the directory basename, and
produce the catalog tuple together with the `index_to_hmms` binding.
`ok none` means the descriptor was excluded by the size filter. -/
def processPath (fs : FileSys) (lower upper : Int) (total : Nat) (p : String) :
    Except LoaderErr (Option (HmmTuple × (String × HmmVal))) :=
  match headerDict (fs.fileHeader p) with
  | none => .error (.headerLine p)
  | some d =>
    match dictLookup d "NSEQ" with
    | none => .error (.missingNSEQ p)
    | some s =>
      match strToInt s with
      | none => .error (.badNSEQ p s)
      | some num_seq =>
        if (num_seq ≤ upper ∧ lower ≤ num_seq) ∨ total = 1 then
          match fs.subsetAlnLines (subalnPath p) with
          | none => .error (.missingSubaln (subalnPath p))
          | some lc =>
            match indexPairOf p with
            | none => .error (.badDirname (basenameOf p))
            | some (a, b) =>
              .ok (some ((a, lc / 2, b, num_seq), (basenameOf p, (dirnameOf p, a, b, num_seq))))
        else .ok none

/-- The main loop of `obtainHMMs` over the descriptor paths,
accumulating `hmm_indexes` and `index_to_hmms`. -/
def obtainLoop (fs : FileSys) (lower upper : Int) (total : Nat) :
    List String → List HmmTuple → IndexMap → Except LoaderErr (List HmmTuple × IndexMap)
  | [], hx, d => .ok (hx, d)
  | p :: rest, hx, d =>
    match processPath fs lower upper total p with
    | .error e => .error e
    | .ok none => obtainLoop fs lower upper total rest hx d
    | .ok (some (t, kv)) => obtainLoop fs lower upper total rest (hx ++ [t]) (dictInsert d kv.1 kv.2)

/-- Stable insertion into a list sorted by a key in descending order:
the new element goes after every element whose key is greater than or
equal to its own. -/
def insertDesc {α β : Type} [LinearOrder β] (key : α → β) (x : α) : List α → List α
  | [] => [x]
  | y :: ys => if key x ≤ key y then y :: insertDesc key x ys else x :: y :: ys

/-- The Python `sorted(l, key=key, reverse=True)`: the unique stable
sort by the key in descending order, realised as left-to-right stable
insertion. -/
def sortDesc {α β : Type} [LinearOrder β] (key : α → β) (l : List α) : List α :=
  l.foldl (fun acc x => insertDesc key x acc) []

/-- `obtainHMMs(indir, lower, upper, hmmbuild_paths)` of loader.py:
catalog every descriptor whose training sequence count lies in the
inclusive range (or every descriptor when only one file was found),
then sort the catalog tuples by subalignment size in descending order.
Any failed assertion or conversion aborts the whole build. -/
def obtainHMMs (fs : FileSys) (lower upper : Int) :
    Except LoaderErr (List HmmTuple × IndexMap) :=
  match obtainLoop fs lower upper fs.hmmbuildFiles.length fs.hmmbuildFiles [] [] with
  | .error e => .error e
  | .ok (hx, d) => .ok (sortDesc (fun x => x.2.1) hx, d)

/-- `scores[taxon].append(score)` on the `defaultdict(list)`: append to
the list bound to the first matching taxon, or create a new singleton
binding at the end. -/
def scoresAppend : Scores → String → Score → Scores
  | [], t, s => [(t, [s])]
  | q :: qs, t, s => if q.1 = t then (q.1, q.2 ++ [s]) :: qs else q :: scoresAppend qs t s

/-- The collection loops of `getHMMSearchResults`: for every cataloged
model, for every `hmmsearch.results.*` file under its directory, for
every taxon in the file, append `(alignment_ind, hmm_ind, score[1])` to
the score list of the taxon. -/
def collectScores (fs : FileSys) (index_to_hmms : IndexMap) : Scores :=
  index_to_hmms.foldl
    (fun scores entry =>
      (fs.hmmsearchFiles entry.2.1).foldl
        (fun sc path =>
          (fs.searchContent path).foldl
            (fun sc2 e => scoresAppend sc2 e.1 (entry.2.2.1, entry.2.2.2.1, e.2.2))
            sc)
        scores)
    []

/-- `getHMMSearchResults(index_to_hmms)` of loader.py: collect every
scored match and then sort the list of every taxon by bit-score in
descending order. -/
def getHMMSearchResults (fs : FileSys) (index_to_hmms : IndexMap) : Scores :=
  (collectScores fs index_to_hmms).map (fun q => (q.1, sortDesc (fun s => s.2.2) q.2))

/-- `query_assignment[alignment_ind].append(taxon)` on the
`defaultdict(list)`. -/
def qaAppend : Assignment → Int → String → Assignment
  | [], k, q => [(k, [q])]
  | b :: bs, k, q => if b.1 = k then (b.1, b.2 ++ [q]) :: bs else b :: qaAppend bs k q

/-- The loop of `assignQueryToSubset`: for every taxon take
`score[0][0]`, the alignment index of the first entry of its list; an
empty list makes `score[0]` raise `IndexError`. -/
def assignLoop : Scores → Assignment → Except LoaderErr Assignment
  | [], qa => .ok qa
  | (_t, []) :: _, _ => .error .indexError
  | (t, s :: _) :: rest, qa => assignLoop rest (qaAppend qa s.1 t)

/-- `assignQueryToSubset(scores, hmm_indexes, index_to_hmms)` of
loader.py; the two extra arguments are accepted and ignored exactly as
in the source. -/
def assignQueryToSubset (scores : Scores) (_hmm_indexes : List HmmTuple)
    (_index_to_hmms : IndexMap) : Except LoaderErr Assignment :=
  assignLoop scores []

/-- The three-stage pipeline run on one filesystem state: catalog,
collect and rank, assign. -/
def runPipeline (fs : FileSys) (lower upper : Int) : Except LoaderErr Assignment :=
  match obtainHMMs fs lower upper with
  | .error e => .error e
  | .ok (hx, d) => assignQueryToSubset (getHMMSearchResults fs d) hx d

/-- The sublist of entries whose key equals a given value, in order;
used to express stability of the descending sorts. -/
def keyFilter {α β : Type} [LinearOrder β] (key : α → β) (c : β) (l : List α) : List α :=
  l.filter (fun y => decide (key y = c))

theorem splitOnChar_ne_nil (c : Char) (l : List Char) : splitOnChar c l ≠ [] := by
  cases l with
  | nil => simp [splitOnChar]
  | cons x xs =>
    simp only [splitOnChar]
    cases splitOnChar c xs with
    | nil => simp
    | cons t ts => by_cases hx : x = c <;> simp [hx]

theorem keyFilter_cons {α β : Type} [LinearOrder β] (key : α → β) (c : β) (z : α) (l : List α) :
    keyFilter key c (z :: l) = if key z = c then z :: keyFilter key c l else keyFilter key c l := by
  by_cases hz : key z = c <;> simp [keyFilter, List.filter_cons, hz]

theorem insertDesc_perm {α β : Type} [LinearOrder β] (key : α → β) (x : α) (l : List α) :
    (insertDesc key x l).Perm (x :: l) := by
  induction l with
  | nil => simp [insertDesc]
  | cons y ys ih =>
    simp only [insertDesc]
    split
    · exact (ih.cons y).trans (List.Perm.swap x y ys)
    · exact List.Perm.refl _

theorem foldl_insertDesc_perm {α β : Type} [LinearOrder β] (key : α → β) :
    ∀ (l acc : List α), (l.foldl (fun a x => insertDesc key x a) acc).Perm (acc ++ l)
  | [], acc => by simp
  | x :: xs, acc => by
    simp only [List.foldl_cons]
    have h1 := foldl_insertDesc_perm key xs (insertDesc key x acc)
    have h2 : (insertDesc key x acc ++ xs).Perm (acc ++ x :: xs) :=
      ((insertDesc_perm key x acc).append_right xs).trans List.perm_middle.symm
    exact h1.trans h2

theorem sortDesc_perm {α β : Type} [LinearOrder β] (key : α → β) (l : List α) :
    (sortDesc key l).Perm l := by
  simpa [sortDesc] using foldl_insertDesc_perm key l []

theorem insertDesc_sorted {α β : Type} [LinearOrder β] (key : α → β) (x : α) (l : List α)
    (h : l.Pairwise (fun a b => key b ≤ key a)) :
    (insertDesc key x l).Pairwise (fun a b => key b ≤ key a) := by
  induction l with
  | nil => simp [insertDesc]
  | cons y ys ih =>
    rcases List.pairwise_cons.mp h with ⟨hy, hys⟩
    simp only [insertDesc]
    by_cases hxy : key x ≤ key y
    · rw [if_pos hxy]
      refine List.pairwise_cons.mpr ⟨?_, ih hys⟩
      intro z hz
      rcases List.mem_cons.mp ((insertDesc_perm key x ys).mem_iff.mp hz) with rfl | hzys
      · exact hxy
      · exact hy z hzys
    · rw [if_neg hxy]
      refine List.pairwise_cons.mpr ⟨?_, h⟩
      intro z hz
      rcases List.mem_cons.mp hz with rfl | hzys
      · exact le_of_lt (lt_of_not_le hxy)
      · exact le_trans (hy z hzys) (le_of_lt (lt_of_not_le hxy))

theorem foldl_insertDesc_sorted {α β : Type} [LinearOrder β] (key : α → β) :
    ∀ (l acc : List α), acc.Pairwise (fun a b => key b ≤ key a) →
      (l.foldl (fun a x => insertDesc key x a) acc).Pairwise (fun a b => key b ≤ key a)
  | [], _, h => h
  | x :: xs, acc, h => by
    simp only [List.foldl_cons]
    exact foldl_insertDesc_sorted key xs (insertDesc key x acc) (insertDesc_sorted key x acc h)

theorem sortDesc_sorted {α β : Type} [LinearOrder β] (key : α → β) (l : List α) :
    (sortDesc key l).Pairwise (fun a b => key b ≤ key a) :=
  foldl_insertDesc_sorted key l [] List.Pairwise.nil

theorem insertDesc_keyFilter {α β : Type} [LinearOrder β] (key : α → β) (x : α) (l : List α)
    (h : l.Pairwise (fun a b => key b ≤ key a)) (c : β) :
    keyFilter key c (insertDesc key x l) =
      if key x = c then keyFilter key c l ++ [x] else keyFilter key c l := by
  induction l with
  | nil => by_cases hxc : key x = c <;> simp [insertDesc, keyFilter, hxc]
  | cons y ys ih =>
    rcases List.pairwise_cons.mp h with ⟨hy, hys⟩
    by_cases hxy : key x ≤ key y
    · rw [show insertDesc key x (y :: ys) = y :: insertDesc key x ys from by
        simp [insertDesc, hxy]]
      rw [keyFilter_cons, keyFilter_cons, ih hys]
      by_cases hyc : key y = c <;> by_cases hxc : key x = c <;> simp [hyc, hxc]
    · have hyx : key y < key x := lt_of_not_le hxy
      rw [show insertDesc key x (y :: ys) = x :: y :: ys from by simp [insertDesc, hxy]]
      rw [keyFilter_cons]
      by_cases hxc : key x = c
      · have hnil : keyFilter key c (y :: ys) = [] := by
          simp only [keyFilter, List.filter_eq_nil_iff]
          intro z hz
          rcases List.mem_cons.mp hz with rfl | hzys
          · simpa using ne_of_lt (hxc ▸ hyx)
          · simpa using ne_of_lt (lt_of_le_of_lt (hy z hzys) (hxc ▸ hyx))
        simp [hxc, hnil]
      · simp [hxc]

theorem foldl_insertDesc_keyFilter {α β : Type} [LinearOrder β] (key : α → β) (c : β) :
    ∀ (l acc : List α), acc.Pairwise (fun a b => key b ≤ key a) →
      keyFilter key c (l.foldl (fun a x => insertDesc key x a) acc) =
        keyFilter key c acc ++ keyFilter key c l
  | [], acc, _ => by simp [keyFilter]
  | x :: xs, acc, h => by
    simp only [List.foldl_cons]
    rw [foldl_insertDesc_keyFilter key c xs (insertDesc key x acc) (insertDesc_sorted key x acc h),
      insertDesc_keyFilter key x acc h c, keyFilter_cons]
    by_cases hxc : key x = c <;> simp [hxc]

theorem sortDesc_keyFilter {α β : Type} [LinearOrder β] (key : α → β) (c : β) (l : List α) :
    keyFilter key c (sortDesc key l) = keyFilter key c l := by
  simpa [sortDesc, keyFilter] using foldl_insertDesc_keyFilter key c l [] List.Pairwise.nil

theorem includedB_true_iff (fs : FileSys) (lower upper : Int) (total : Nat) (p : String) :
    includedB fs lower upper total p = true ↔
      ∃ n, nseqOf fs p = some n ∧ ((n ≤ upper ∧ lower ≤ n) ∨ total = 1) := by
  unfold includedB
  cases h : nseqOf fs p with
  | none => simp
  | some n => simp [h]

theorem processPath_ok (fs : FileSys) (lower upper : Int) (total : Nat) (p : String)
    (r : Option (HmmTuple × (String × HmmVal)))
    (h : processPath fs lower upper total p = .ok r) :
    ∃ dct s n, headerDict (fs.fileHeader p) = some dct ∧ dictLookup dct "NSEQ" = some s ∧
      strToInt s = some n ∧ nseqOf fs p = some n ∧
      ((¬((n ≤ upper ∧ lower ≤ n) ∨ total = 1) ∧ r = none) ∨
       (((n ≤ upper ∧ lower ≤ n) ∨ total = 1) ∧
        ∃ lc a b, fs.subsetAlnLines (subalnPath p) = some lc ∧ indexPairOf p = some (a, b) ∧
          r = some ((a, lc / 2, b, n), (basenameOf p, (dirnameOf p, a, b, n))))) := by
  unfold processPath at h
  split at h
  · exact absurd h (by simp)
  next dct hh =>
    split at h
    · exact absurd h (by simp)
    next s hl =>
      split at h
      · exact absurd h (by simp)
      next n hn =>
        refine ⟨dct, s, n, hh, hl, hn, by simp [nseqOf, hh, hl, hn], ?_⟩
        split at h
        next hcond =>
          split at h
          · exact absurd h (by simp)
          next lc hsub =>
            split at h
            · exact absurd h (by simp)
            next a b hip =>
              refine Or.inr ⟨hcond, lc, a, b, hsub, hip, ?_⟩
              injection h with h2
              exact h2.symm
        next hcond =>
          injection h with h2
          exact Or.inl ⟨hcond, h2.symm⟩

theorem processPath_ok_none_excluded (fs : FileSys) (lower upper : Int) (total : Nat) (p : String)
    (h : processPath fs lower upper total p = .ok none) :
    includedB fs lower upper total p = false := by
  rcases processPath_ok fs lower upper total p none h with
    ⟨dct, s, n, _, _, _, hnseq, hcase⟩
  rcases hcase with ⟨hnot, _⟩ | ⟨_, _, _, _, _, _, habs⟩
  · unfold includedB
    rw [hnseq]
    simpa using hnot
  · exact absurd habs (by simp)

theorem processPath_ok_some_included (fs : FileSys) (lower upper : Int) (total : Nat) (p : String)
    (t : HmmTuple) (kv : String × HmmVal)
    (h : processPath fs lower upper total p = .ok (some (t, kv))) :
    includedB fs lower upper total p = true ∧ t = catalogEntry fs p ∧ kv.1 = basenameOf p := by
  rcases processPath_ok fs lower upper total p (some (t, kv)) h with
    ⟨dct, s, n, _, _, _, hnseq, hcase⟩
  rcases hcase with ⟨_, habs⟩ | ⟨hcond, lc, a, b, hsub, hip, heq⟩
  · exact absurd habs (by simp)
  · injection heq with heq2
    rw [Prod.mk.injEq] at heq2
    obtain ⟨ht, hkv⟩ := heq2
    refine ⟨?_, ?_, by rw [hkv]⟩
    · rw [includedB_true_iff]
      exact ⟨n, hnseq, hcond⟩
    · rw [ht]
      unfold catalogEntry
      rw [hnseq, hsub, hip]
      rfl

theorem obtainLoop_ok_forall (fs : FileSys) (lower upper : Int) (total : Nat) :
    ∀ (paths : List String) (hx : List HmmTuple) (d : IndexMap)
      (res : List HmmTuple × IndexMap),
      obtainLoop fs lower upper total paths hx d = .ok res →
      ∀ p ∈ paths, ∃ r, processPath fs lower upper total p = .ok r
  | [], _, _, _, _ => by simp
  | q :: rest, hx, d, res, h => by
    intro p hp
    unfold obtainLoop at h
    cases hq : processPath fs lower upper total q with
    | error e => rw [hq] at h; exact absurd h (by simp)
    | ok v =>
      rw [hq] at h
      rcases List.mem_cons.mp hp with rfl | hprest
      · exact ⟨v, hq⟩
      · cases v with
        | none => exact obtainLoop_ok_forall fs lower upper total rest hx d res h p hprest
        | some tkv =>
          exact obtainLoop_ok_forall fs lower upper total rest (hx ++ [tkv.1])
            (dictInsert d tkv.2.1 tkv.2.2) res h p hprest

theorem obtainLoop_ok_catalog (fs : FileSys) (lower upper : Int) (total : Nat) :
    ∀ (paths : List String) (hx : List HmmTuple) (d : IndexMap)
      (res : List HmmTuple × IndexMap),
      obtainLoop fs lower upper total paths hx d = .ok res →
      res.1 = hx ++ (paths.filter (includedB fs lower upper total)).map (catalogEntry fs)
  | [], hx, d, res, h => by
    unfold obtainLoop at h
    injection h with h2
    rw [← h2]
    simp
  | q :: rest, hx, d, res, h => by
    unfold obtainLoop at h
    cases hq : processPath fs lower upper total q with
    | error e => rw [hq] at h; exact absurd h (by simp)
    | ok v =>
      rw [hq] at h
      cases v with
      | none =>
        have hexc := processPath_ok_none_excluded fs lower upper total q hq
        have := obtainLoop_ok_catalog fs lower upper total rest hx d res h
        rw [this, List.filter_cons_of_neg (by simp [hexc])]
      | some tkv =>
        have hinc := processPath_ok_some_included fs lower upper total q tkv.1 tkv.2 hq
        have := obtainLoop_ok_catalog fs lower upper total rest (hx ++ [tkv.1])
          (dictInsert d tkv.2.1 tkv.2.2) res h
        rw [this, List.filter_cons_of_pos (by simp [hinc.1]), List.map_cons,
          List.append_assoc, ← hinc.2.1]
        rfl

/-- C2: a descriptor contributes a catalog tuple exactly when its NSEQ
value lies in the inclusive range `[lower, upper]` or the total number
of descriptor files being processed is exactly one: on a successful
run, the catalog list is a permutation (it is subsequently re-sorted by
size) of the tuples of exactly the descriptors passing `includedB`, in
which `includedB` is the source inclusion test
`(num_seq <= upper and num_seq >= lower) or len(hmmbuild_paths) == 1`. -/
theorem obtainHMMs_size_filter (fs : FileSys) (lower upper : Int)
    (hx : List HmmTuple) (d : IndexMap)
    (hok : obtainHMMs fs lower upper = .ok (hx, d)) :
    hx.Perm
      ((fs.hmmbuildFiles.filter
        (includedB fs lower upper fs.hmmbuildFiles.length)).map (catalogEntry fs)) := by
  unfold obtainHMMs at hok
  cases hloop : obtainLoop fs lower upper fs.hmmbuildFiles.length fs.hmmbuildFiles [] [] with
  | error e => rw [hloop] at hok; exact absurd hok (by simp)
  | ok pre =>
    rw [hloop] at hok
    injection hok with hok2
    rw [Prod.mk.injEq] at hok2
    obtain ⟨hhx, hd⟩ := hok2
    have hcat := obtainLoop_ok_catalog fs lower upper fs.hmmbuildFiles.length
      fs.hmmbuildFiles [] [] pre hloop
    rw [← hhx, ← List.nil_append ((fs.hmmbuildFiles.filter _).map _), ← hcat]
    exact sortDesc_perm (fun x => x.2.1) pre.1

/-- C8: on a successful run the returned catalog is the stable
descending sort, by subalignment size (the second tuple component), of
the tuple list accumulated by the processing loop: it is pairwise
sorted in descending order, and for every size value the subsequence of
tuples of that size is exactly the one of the pre-sort list, so ties
keep their relative pre-sort order. -/
theorem obtainHMMs_catalog_sorted (fs : FileSys) (lower upper : Int)
    (hx : List HmmTuple) (d : IndexMap)
    (hok : obtainHMMs fs lower upper = .ok (hx, d)) :
    hx.Pairwise (fun a b => b.2.1 ≤ a.2.1) ∧
    ∃ pre, obtainLoop fs lower upper fs.hmmbuildFiles.length fs.hmmbuildFiles [] []
        = .ok (pre, d) ∧
      hx = sortDesc (fun x => x.2.1) pre ∧
      ∀ c, keyFilter (fun x : HmmTuple => x.2.1) c hx
        = keyFilter (fun x : HmmTuple => x.2.1) c pre := by
  unfold obtainHMMs at hok
  cases hloop : obtainLoop fs lower upper fs.hmmbuildFiles.length fs.hmmbuildFiles [] [] with
  | error e => rw [hloop] at hok; exact absurd hok (by simp)
  | ok pre =>
    obtain ⟨pre1, d2⟩ := pre
    rw [hloop] at hok
    injection hok with hok2
    rw [Prod.mk.injEq] at hok2
    obtain ⟨hhx, hd⟩ := hok2
    subst hd
    constructor
    · rw [← hhx]
      exact sortDesc_sorted (fun x => x.2.1) pre1
    · exact ⟨pre1, rfl, hhx.symm,
        fun c => by rw [← hhx]; exact sortDesc_keyFilter (fun x => x.2.1) c pre1⟩

theorem indexPairOf_eq_some (p : String) (a b : Int)
    (h : indexPairOf p = some (a, b)) :
    ∃ sa sh, (splitStr '_' (basenameOf p)).drop 1 = [sa, sh] ∧
      strToInt sa = some a ∧ strToInt sh = some b := by
  unfold indexPairOf at h
  split at h
  next sa sh heq =>
    split at h
    next a2 b2 hsa hsh =>
      injection h with h2
      rw [Prod.mk.injEq] at h2
      exact ⟨sa, sh, heq, by rw [hsa, h2.1], by rw [hsh, h2.2]⟩
    next hother => exact absurd h (by simp)
  next heq => exact absurd h (by simp)

/-- C6: for a descriptor that passes the inclusion test, on any
successful run the basename of its containing directory splits at
underscores into exactly an ignored first token followed by two integer
tokens — the last two tokens of the basename — and the catalog tuple of
the descriptor carries exactly those two integers as its alignment and
hmm indexes; and when the basename does not have that shape the whole
catalog build aborts with an error. -/
theorem obtainHMMs_dirname_pattern (fs : FileSys) (lower upper : Int) (p : String)
    (hp : p ∈ fs.hmmbuildFiles)
    (hinc : includedB fs lower upper fs.hmmbuildFiles.length p = true) :
    (∀ hx d, obtainHMMs fs lower upper = .ok (hx, d) →
      ∃ pre sa sh a b, splitStr '_' (basenameOf p) = [pre, sa, sh] ∧
        strToInt sa = some a ∧ strToInt sh = some b ∧
        indexPairOf p = some (a, b) ∧ catalogEntry fs p ∈ hx ∧
        (catalogEntry fs p).1 = a ∧ (catalogEntry fs p).2.2.1 = b) ∧
    (indexPairOf p = none → ∃ e, obtainHMMs fs lower upper = .error e) := by
  constructor
  · intro hx d hok
    unfold obtainHMMs at hok
    cases hloop : obtainLoop fs lower upper fs.hmmbuildFiles.length fs.hmmbuildFiles [] [] with
    | error e => rw [hloop] at hok; exact absurd hok (by simp)
    | ok res =>
      rw [hloop] at hok
      injection hok with hok2
      rw [Prod.mk.injEq] at hok2
      obtain ⟨hhx, hd⟩ := hok2
      obtain ⟨r, hr⟩ := obtainLoop_ok_forall fs lower upper fs.hmmbuildFiles.length
        fs.hmmbuildFiles [] [] res hloop p hp
      rcases processPath_ok fs lower upper fs.hmmbuildFiles.length p r hr with
        ⟨dct, s, n, _, _, _, hnseq, hcase⟩
      rcases hcase with ⟨hnot, _⟩ | ⟨_, lc, a, b, hsub, hip, _⟩
      · rw [includedB_true_iff] at hinc
        obtain ⟨n2, hn2, hcond2⟩ := hinc
        rw [hnseq] at hn2
        injection hn2 with hn2
        exact absurd (hn2 ▸ hcond2) hnot
      · obtain ⟨sa, sh, hsash, hsa, hsh⟩ := indexPairOf_eq_some p a b hip
        have htok : ∃ pre2, splitStr '_' (basenameOf p) = [pre2] ++
            (splitStr '_' (basenameOf p)).drop 1 := by
          cases hsp : splitStr '_' (basenameOf p) with
          | nil =>
            exfalso
            have := splitOnChar_ne_nil '_' (basenameOf p).data
            simp [splitStr] at hsp
            exact this hsp
          | cons t ts => exact ⟨t, by simp⟩
        obtain ⟨pre2, hpre2⟩ := htok
        refine ⟨pre2, sa, sh, a, b, by rw [hpre2, hsash]; rfl, hsa, hsh, hip, ?_, ?_, ?_⟩
        · have hcat := obtainLoop_ok_catalog fs lower upper fs.hmmbuildFiles.length
            fs.hmmbuildFiles [] [] res hloop
          rw [← hhx, (sortDesc_perm (fun x => x.2.1) res.1).mem_iff, hcat]
          simp only [List.nil_append]
          exact List.mem_map_of_mem (catalogEntry fs) (List.mem_filter.mpr ⟨hp, hinc⟩)
        · unfold catalogEntry
          rw [hip]
          rfl
        · unfold catalogEntry
          rw [hip]
          rfl
  · intro hnone
    cases hres : obtainHMMs fs lower upper with
    | error e => exact ⟨e, rfl⟩
    | ok v =>
      exfalso
      unfold obtainHMMs at hres
      cases hloop : obtainLoop fs lower upper fs.hmmbuildFiles.length fs.hmmbuildFiles [] [] with
      | error e => rw [hloop] at hres; exact absurd hres (by simp)
      | ok res =>
        obtain ⟨r, hr⟩ := obtainLoop_ok_forall fs lower upper fs.hmmbuildFiles.length
          fs.hmmbuildFiles [] [] res hloop p hp
        rcases processPath_ok fs lower upper fs.hmmbuildFiles.length p r hr with
          ⟨dct, s, n, _, _, _, hnseq, hcase⟩
        rcases hcase with ⟨hnot, _⟩ | ⟨_, lc, a, b, hsub, hip, _⟩
        · rw [includedB_true_iff] at hinc
          obtain ⟨n2, hn2, hcond2⟩ := hinc
          rw [hnseq] at hn2
          injection hn2 with hn2
          exact absurd (hn2 ▸ hcond2) hnot
        · rw [hnone] at hip
          exact absurd hip (by simp)

/-- C7: the catalog build fails with an error — returning no catalog at
all, since the error constructor of `Except` carries none — whenever
some processed descriptor has a header dictionary without the NSEQ key,
or some descriptor that passes the inclusion test has no subset
alignment file one directory level up. -/
theorem obtainHMMs_fatal_on_malformed (fs : FileSys) (lower upper : Int)
    (hbad :
      (∃ p ∈ fs.hmmbuildFiles, ∃ dct, headerDict (fs.fileHeader p) = some dct ∧
        dictLookup dct "NSEQ" = none) ∨
      (∃ p ∈ fs.hmmbuildFiles,
        includedB fs lower upper fs.hmmbuildFiles.length p = true ∧
        fs.subsetAlnLines (subalnPath p) = none)) :
    ∃ e, obtainHMMs fs lower upper = .error e := by
  cases hres : obtainHMMs fs lower upper with
  | error e => exact ⟨e, rfl⟩
  | ok v =>
    exfalso
    unfold obtainHMMs at hres
    cases hloop : obtainLoop fs lower upper fs.hmmbuildFiles.length fs.hmmbuildFiles [] [] with
    | error e => rw [hloop] at hres; exact absurd hres (by simp)
    | ok res =>
      rcases hbad with ⟨p, hp, dct, hdct, hmiss⟩ | ⟨p, hp, hinc, hmiss⟩
      · obtain ⟨r, hr⟩ := obtainLoop_ok_forall fs lower upper fs.hmmbuildFiles.length
          fs.hmmbuildFiles [] [] res hloop p hp
        rcases processPath_ok fs lower upper fs.hmmbuildFiles.length p r hr with
          ⟨dct2, s, n, hdct2, hl2, _, _, _⟩
        rw [hdct] at hdct2
        injection hdct2 with hdct2
        rw [← hdct2] at hl2
        rw [hmiss] at hl2
        exact absurd hl2 (by simp)
      · obtain ⟨r, hr⟩ := obtainLoop_ok_forall fs lower upper fs.hmmbuildFiles.length
          fs.hmmbuildFiles [] [] res hloop p hp
        rcases processPath_ok fs lower upper fs.hmmbuildFiles.length p r hr with
          ⟨dct, s, n, _, _, _, hnseq, hcase⟩
        rcases hcase with ⟨hnot, _⟩ | ⟨_, lc, a, b, hsub, _, _⟩
        · rw [includedB_true_iff] at hinc
          obtain ⟨n2, hn2, hcond2⟩ := hinc
          rw [hnseq] at hn2
          injection hn2 with hn2
          exact absurd (hn2 ▸ hcond2) hnot
        · rw [hmiss] at hsub
          exact absurd hsub (by simp)

/-- C9: the pipeline is a pure function of the filesystem state, so two
runs over the same unchanged artifacts (the same `FileSys` value)
return the same `QueryAssignment`: determinism is definitional in the
embedding, because every stage reads only the immutable `FileSys` and
the outputs of the earlier stages. -/
theorem runPipeline_deterministic (fs : FileSys) (lower upper : Int) :
    runPipeline fs lower upper = runPipeline fs lower upper := rfl

/-- A filesystem with two descriptors whose containing directories have
the same basename `p_1_2` under different parents; both lie in range
for the bounds 0 and 9. -/
def fsDup : FileSys where
  hmmbuildFiles := ["x/p_1_2/hmmbuild.model.0", "y/p_1_2/hmmbuild.model.0"]
  fileHeader := fun _ => [["NSEQ", "5"]]
  subsetAlnLines := fun q =>
    if q = "x/subset.aln.fasta" then some 8
    else if q = "y/subset.aln.fasta" then some 6
    else none
  hmmsearchFiles := fun _ => []
  searchContent := fun _ => []

/-- C10: on `fsDup` the two included descriptors share the basename key
`p_1_2`, so the ordered tuple list keeps one entry per descriptor while
the basename-keyed mapping retains a single binding holding only the
data of the last-processed descriptor (the one under `y/`), leaving the
mapping with fewer entries than the tuple list even though the two
descriptors have the same identity pair of indices. -/
theorem obtainHMMs_basename_collision :
    ∃ hx d, obtainHMMs fsDup 0 9 = .ok (hx, d) ∧
      hx = [(1, 4, 2, 5), (1, 3, 2, 5)] ∧
      d = [("p_1_2", ("y/p_1_2", 1, 2, 5))] ∧
      d.length < hx.length ∧
      dictLookup d "p_1_2" = some ("y/p_1_2", 1, 2, 5) :=
  ⟨[(1, 4, 2, 5), (1, 3, 2, 5)], [("p_1_2", ("y/p_1_2", 1, 2, 5))],
    rfl, rfl, rfl, by decide, by decide⟩

/-- The scored matches contributed by one `index_to_hmms` entry, in
discovery order: one per taxon occurrence per search-result file found
under the model directory. -/
def matchesOfEntry (fs : FileSys) (e : String × HmmVal) : List (String × Score) :=
  (fs.hmmsearchFiles e.2.1).flatMap
    (fun path => (fs.searchContent path).map (fun en => (en.1, (e.2.2.1, e.2.2.2.1, en.2.2))))

/-- All scored matches of a run, in discovery order across all
cataloged models and all their search-result files. -/
def allMatches (fs : FileSys) (ihm : IndexMap) : List (String × Score) :=
  ihm.flatMap (matchesOfEntry fs)

/-- The number of scored matches that a `Scores` mapping holds for the
query `q` against the model identity `(a, b)`. -/
def scoredCount (sc : Scores) (q : String) (a b : Int) : Nat :=
  (sc.map (fun en =>
    if en.1 = q then en.2.countP (fun s => decide (s.1 = a ∧ s.2.1 = b)) else 0)).sum

/-- The number of occurrences of the pair `(q, (a, b))` across the
search-result files of all cataloged models carrying identity
`(a, b)`. -/
def pairOccurrences (fs : FileSys) (ihm : IndexMap) (q : String) (a b : Int) : Nat :=
  (allMatches fs ihm).countP (fun m => decide (m.1 = q ∧ m.2.1 = a ∧ m.2.2.1 = b))

/-- Whether the pair `(q, (a, b))` appears in some search-result file
under some cataloged model of identity `(a, b)`. -/
def pairInResultsB (fs : FileSys) (ihm : IndexMap) (q : String) (a b : Int) : Bool :=
  ihm.any (fun e => decide (e.2.2.1 = a) && decide (e.2.2.2.1 = b) &&
    (fs.hmmsearchFiles e.2.1).any
      (fun path => (fs.searchContent path).any (fun en => decide (en.1 = q))))

theorem foldl_flatMap {α β γ : Type} (f : γ → α → γ) (g : β → List α) :
    ∀ (l : List β) (init : γ),
      (l.flatMap g).foldl f init = l.foldl (fun acc x => (g x).foldl f acc) init
  | [], _ => rfl
  | x :: xs, init => by
    simp only [List.flatMap_cons, List.foldl_append, List.foldl_cons]
    exact foldl_flatMap f g xs ((g x).foldl f init)

theorem collectScores_eq_foldl (fs : FileSys) (ihm : IndexMap) :
    collectScores fs ihm =
      (allMatches fs ihm).foldl (fun sc m => scoresAppend sc m.1 m.2) [] := by
  unfold collectScores allMatches
  rw [foldl_flatMap]
  congr 1
  funext scores entry
  unfold matchesOfEntry
  rw [foldl_flatMap]
  congr 1
  funext sc path
  rw [List.foldl_map]

theorem scoresAppend_scoredCount (sc : Scores) (t : String) (s : Score)
    (q : String) (a b : Int) :
    scoredCount (scoresAppend sc t s) q a b =
      scoredCount sc q a b + (if t = q ∧ s.1 = a ∧ s.2.1 = b then 1 else 0) := by
  induction sc with
  | nil =>
    by_cases ht : t = q
    · by_cases hs : s.1 = a ∧ s.2.1 = b <;>
        simp [scoresAppend, scoredCount, ht, hs, List.countP_cons]
    · simp [scoresAppend, scoredCount, ht]
  | cons p ps ih =>
    by_cases hp : p.1 = t
    · simp only [scoresAppend, if_pos hp]
      by_cases hq : p.1 = q
      · have htq : t = q := hp ▸ hq
        simp only [scoredCount, List.map_cons, List.sum_cons, if_pos hq,
          List.countP_append, htq, true_and]
        by_cases hs : s.1 = a ∧ s.2.1 = b <;>
          simp [List.countP_cons, hs] <;> omega
      · have htq : ¬t = q := fun h => hq (hp.trans h)
        simp [scoredCount, hq, htq]
    · simp only [scoresAppend, if_neg hp]
      simp only [scoredCount, List.map_cons, List.sum_cons] at ih ⊢
      rw [ih]
      omega

theorem foldl_scoresAppend_scoredCount (q : String) (a b : Int) :
    ∀ (ms : List (String × Score)) (sc : Scores),
      scoredCount (ms.foldl (fun sc2 m => scoresAppend sc2 m.1 m.2) sc) q a b =
        scoredCount sc q a b +
          ms.countP (fun m => decide (m.1 = q ∧ m.2.1 = a ∧ m.2.2.1 = b))
  | [], sc => by simp
  | m :: ms, sc => by
    simp only [List.foldl_cons, List.countP_cons]
    rw [foldl_scoresAppend_scoredCount q a b ms (scoresAppend sc m.1 m.2),
      scoresAppend_scoredCount]
    by_cases hm : m.1 = q ∧ m.2.1 = a ∧ m.2.2.1 = b <;> simp [hm] <;> omega

theorem scoredCount_map_sort (sc : Scores) (q : String) (a b : Int) :
    scoredCount (sc.map (fun p => (p.1, sortDesc (fun s => s.2.2) p.2))) q a b =
      scoredCount sc q a b := by
  induction sc with
  | nil => rfl
  | cons p ps ih =>
    simp only [List.map_cons, scoredCount, List.sum_cons] at ih ⊢
    rw [ih]
    congr 1
    by_cases hq : p.1 = q <;> simp [hq]
    exact (sortDesc_perm (fun s => s.2.2) p.2).countP_eq _

/-- C5 (amended): the number of `ScoredMatch` entries that
`getHMMSearchResults` produces for a query against a model identity
equals the number of occurrences of that pair across the search-result
files of all cataloged models with that identity — exactly one when the
pair occurs in exactly one file, and one per shard when the same pair
occurs in several result-file shards. -/
theorem getHMMSearchResults_occurrence_count (fs : FileSys) (ihm : IndexMap)
    (q : String) (a b : Int) :
    scoredCount (getHMMSearchResults fs ihm) q a b = pairOccurrences fs ihm q a b := by
  unfold getHMMSearchResults pairOccurrences
  rw [scoredCount_map_sort, collectScores_eq_foldl, foldl_scoresAppend_scoredCount]
  simp [scoredCount]

/-- C3: every score list in the mapping returned by
`getHMMSearchResults` is pairwise sorted by bit-score in descending
order, and it is the stable descending sort of the collected list of
that query, so entries with equal bit-score keep their relative
discovery (append) order: for every bit-score value, the subsequence of
entries with that score equals the one of the collected list. -/
theorem getHMMSearchResults_ranked (fs : FileSys) (ihm : IndexMap)
    (q : String) (l : List Score)
    (hmem : (q, l) ∈ getHMMSearchResults fs ihm) :
    l.Pairwise (fun s t => t.2.2 ≤ s.2.2) ∧
    ∃ l₀, (q, l₀) ∈ collectScores fs ihm ∧ l = sortDesc (fun s => s.2.2) l₀ ∧
      ∀ c, keyFilter (fun s : Score => s.2.2) c l
        = keyFilter (fun s : Score => s.2.2) c l₀ := by
  unfold getHMMSearchResults at hmem
  obtain ⟨p₀, hp₀, heq⟩ := List.mem_map.mp hmem
  rw [Prod.mk.injEq] at heq
  obtain ⟨hq, hl⟩ := heq
  subst hq
  refine ⟨?_, p₀.2, hp₀, hl.symm, ?_⟩
  · rw [← hl]
    exact sortDesc_sorted (fun s => s.2.2) p₀.2
  · intro c
    rw [← hl]
    exact sortDesc_keyFilter (fun s => s.2.2) c p₀.2

/-- A filesystem with a single cataloged model, identity `(1, 0)`,
whose directory holds two search-result shards that both contain the
query `Q`. -/
def fsShards : FileSys where
  hmmbuildFiles := ["m/s_1_0/hmmbuild.model.0"]
  fileHeader := fun _ => [["NSEQ", "5"]]
  subsetAlnLines := fun q => if q = "m/subset.aln.fasta" then some 8 else none
  hmmsearchFiles := fun dir =>
    if dir = "m/s_1_0" then ["m/s_1_0/hmmsearch.results.0", "m/s_1_0/hmmsearch.results.1"]
    else []
  searchContent := fun p =>
    if p = "m/s_1_0/hmmsearch.results.0" then [("Q", (0, 50))]
    else if p = "m/s_1_0/hmmsearch.results.1" then [("Q", (0, 60))] else []

/-- C5 (counterexample): on `fsShards` the pair of query `Q` and the
cataloged model `(1, 0)` appears in a search-result file, yet
`getHMMSearchResults` produces two `ScoredMatch` entries for it — one
per shard — not exactly one. -/
theorem getHMMSearchResults_shard_duplicate :
    obtainHMMs fsShards 0 9 = .ok ([(1, 4, 0, 5)], [("s_1_0", ("m/s_1_0", 1, 0, 5))]) ∧
    pairInResultsB fsShards [("s_1_0", ("m/s_1_0", 1, 0, 5))] "Q" 1 0 = true ∧
    scoredCount
      (getHMMSearchResults fsShards [("s_1_0", ("m/s_1_0", 1, 0, 5))]) "Q" 1 0 = 2 :=
  ⟨rfl, rfl, rfl⟩

/-- Total number of occurrences of a taxon across all buckets of an
assignment. -/
def occCountQA (qa : Assignment) (q : String) : Nat :=
  (qa.map (fun b => b.2.count q)).sum

/-- Number of buckets of an assignment that contain a taxon. -/
def bucketsWithQA (qa : Assignment) (q : String) : Nat :=
  (qa.filter (fun b => decide (q ∈ b.2))).length

/-- The taxon `q` sits in the bucket keyed by the alignment index `k`. -/
def memBucket (qa : Assignment) (k : Int) (q : String) : Prop :=
  ∃ b ∈ qa, b.1 = k ∧ q ∈ b.2

theorem qaAppend_occ (qa : Assignment) (k : Int) (q q' : String) :
    occCountQA (qaAppend qa k q) q' = occCountQA qa q' + (if q = q' then 1 else 0) := by
  induction qa with
  | nil =>
    by_cases hq : q = q' <;>
      simp [qaAppend, occCountQA, List.count_cons, hq]
  | cons b bs ih =>
    by_cases hb : b.1 = k
    · simp only [qaAppend, if_pos hb, occCountQA, List.map_cons, List.sum_cons,
        List.count_append]
      by_cases hq : q = q' <;> simp [List.count_cons, List.count_nil, hq] <;> omega
    · simp only [qaAppend, if_neg hb, occCountQA, List.map_cons, List.sum_cons]
      simp only [occCountQA] at ih
      rw [ih]
      omega

theorem qaAppend_memBucket (qa : Assignment) (k k' : Int) (q q' : String) :
    memBucket (qaAppend qa k q) k' q' ↔ memBucket qa k' q' ∨ (k' = k ∧ q' = q) := by
  induction qa with
  | nil =>
    simp only [qaAppend, memBucket, List.mem_singleton, List.not_mem_nil]
    constructor
    · rintro ⟨b, hb, hk, hq⟩
      subst hb
      rcases List.mem_singleton.mp hq with rfl
      exact Or.inr ⟨hk.symm, rfl⟩
    · rintro (⟨b, hb, _⟩ | ⟨hk, hq⟩)
      · exact absurd hb (by simp)
      · exact ⟨(k, [q]), rfl, hk.symm, by rw [hq]; exact List.mem_singleton_self q⟩
  | cons b bs ih =>
    by_cases hb : b.1 = k
    · simp only [qaAppend, if_pos hb]
      constructor
      · rintro ⟨c, hc, hk, hq⟩
        rcases List.mem_cons.mp hc with rfl | hcbs
        · rcases List.mem_append.mp hq with hq2 | hq2
          · exact Or.inl ⟨b, List.mem_cons_self b bs, by simpa using hk, hq2⟩
          · rcases List.mem_singleton.mp hq2 with rfl
            exact Or.inr ⟨by rw [← hk]; simpa using hb.symm ▸ rfl, rfl⟩
        · exact Or.inl ⟨c, List.mem_cons_of_mem b hcbs, hk, hq⟩
      · rintro (⟨c, hc, hk, hq⟩ | ⟨hk, hq⟩)
        · rcases List.mem_cons.mp hc with rfl | hcbs
          · exact ⟨(c.1, c.2 ++ [q]), List.mem_cons_self _ _, hk,
              List.mem_append.mpr (Or.inl hq)⟩
          · exact ⟨c, List.mem_cons_of_mem _ hcbs, hk, hq⟩
        · exact ⟨(b.1, b.2 ++ [q]), List.mem_cons_self _ _, by rw [hb, hk],
            by rw [hq]; exact List.mem_append.mpr (Or.inr (List.mem_singleton_self q))⟩
    · simp only [qaAppend, if_neg hb]
      constructor
      · rintro ⟨c, hc, hk, hq⟩
        rcases List.mem_cons.mp hc with rfl | hcbs
        · exact Or.inl ⟨c, List.mem_cons_self _ _, hk, hq⟩
        · rcases ih.mp ⟨c, hcbs, hk, hq⟩ with h | h
          · rcases h with ⟨e, he, hk2, hq2⟩
            exact Or.inl ⟨e, List.mem_cons_of_mem _ he, hk2, hq2⟩
          · exact Or.inr h
      · rintro (⟨c, hc, hk, hq⟩ | ⟨hk, hq⟩)
        · rcases List.mem_cons.mp hc with rfl | hcbs
          · exact ⟨c, List.mem_cons_self _ _, hk, hq⟩
          · rcases ih.mpr (Or.inl ⟨c, hcbs, hk, hq⟩) with ⟨e, he, hk2, hq2⟩
            exact ⟨e, List.mem_cons_of_mem _ he, hk2, hq2⟩
        · rcases ih.mpr (Or.inr ⟨hk, hq⟩) with ⟨e, he, hk2, hq2⟩
          exact ⟨e, List.mem_cons_of_mem _ he, hk2, hq2⟩

theorem assignLoop_ok_of_nonempty :
    ∀ (sc : Scores), (∀ p ∈ sc, p.2 ≠ []) →
      ∀ qa, ∃ qa', assignLoop sc qa = .ok qa'
  | [], _, qa => ⟨qa, rfl⟩
  | (t, l) :: rest, hne, qa => by
    cases l with
    | nil => exact absurd rfl (hne (t, []) (List.mem_cons_self _ _))
    | cons s r =>
      obtain ⟨qa', hqa'⟩ := assignLoop_ok_of_nonempty rest
        (fun p hp => hne p (List.mem_cons_of_mem _ hp)) (qaAppend qa s.1 t)
      exact ⟨qa', hqa'⟩

theorem assignLoop_occ :
    ∀ (sc : Scores) (qa qa' : Assignment), assignLoop sc qa = .ok qa' →
      ∀ q, occCountQA qa' q = occCountQA qa q + (sc.map Prod.fst).count q
  | [], qa, qa', h, q => by
    injection h with h2
    rw [← h2]
    simp
  | (t, l) :: rest, qa, qa', h, q => by
    cases l with
    | nil => exact absurd h (by simp [assignLoop])
    | cons s r =>
      have := assignLoop_occ rest (qaAppend qa s.1 t) qa' h q
      rw [this, qaAppend_occ]
      simp only [List.map_cons, List.count_cons]
      by_cases hq : t = q <;> simp [hq] <;> omega

theorem assignLoop_mem :
    ∀ (sc : Scores) (qa qa' : Assignment), assignLoop sc qa = .ok qa' →
      ∀ k q, memBucket qa' k q ↔
        memBucket qa k q ∨ ∃ s r, (q, s :: r) ∈ sc ∧ s.1 = k
  | [], qa, qa', h, k, q => by
    injection h with h2
    rw [← h2]
    simp
  | (t, l) :: rest, qa, qa', h, k, q => by
    cases l with
    | nil => exact absurd h (by simp [assignLoop])
    | cons s r =>
      have hrec := assignLoop_mem rest (qaAppend qa s.1 t) qa' h k q
      rw [hrec, qaAppend_memBucket]
      constructor
      · rintro ((hmem | ⟨hk, hq⟩) | ⟨s2, r2, hmem2, hk2⟩)
        · exact Or.inl hmem
        · exact Or.inr ⟨s, r, by rw [hq]; exact List.mem_cons_self _ _, hk.symm⟩
        · exact Or.inr ⟨s2, r2, List.mem_cons_of_mem _ hmem2, hk2⟩
      · rintro (hmem | ⟨s2, r2, hmem2, hk2⟩)
        · exact Or.inl (Or.inl hmem)
        · rcases List.mem_cons.mp hmem2 with heq | hrest
          · rw [Prod.mk.injEq] at heq
            obtain ⟨hq, hl⟩ := heq
            injection hl with hs hr
            exact Or.inl (Or.inr ⟨by rw [← hk2, hs], hq⟩)
          · exact Or.inr ⟨s2, r2, hrest, hk2⟩

theorem occCountQA_zero_buckets : ∀ (qa : Assignment) (q : String),
    occCountQA qa q = 0 → bucketsWithQA qa q = 0
  | [], _, _ => rfl
  | b :: bs, q, h => by
    have hbh : b.2.count q = 0 ∧ occCountQA bs q = 0 := by
      simp only [occCountQA, List.map_cons, List.sum_cons] at h
      simp only [occCountQA]
      omega
    have hnot : q ∉ b.2 := List.count_eq_zero.mp hbh.1
    simp only [bucketsWithQA, List.filter_cons]
    rw [if_neg (by simpa using hnot)]
    exact occCountQA_zero_buckets bs q hbh.2

theorem occCountQA_one_bucket : ∀ (qa : Assignment) (q : String),
    occCountQA qa q = 1 → bucketsWithQA qa q = 1
  | [], q, h => absurd h (by simp [occCountQA])
  | b :: bs, q, h => by
    rcases Nat.eq_zero_or_pos (b.2.count q) with hzero | hpos
    · have hrest : occCountQA bs q = 1 := by
        simp only [occCountQA, List.map_cons, List.sum_cons] at h
        simp only [occCountQA]
        omega
      have hnot : q ∉ b.2 := List.count_eq_zero.mp hzero
      simp only [bucketsWithQA, List.filter_cons]
      rw [if_neg (by simpa using hnot)]
      exact occCountQA_one_bucket bs q hrest
    · have hmem : q ∈ b.2 := List.count_pos_iff.mp hpos
      have hrest : occCountQA bs q = 0 := by
        simp only [occCountQA, List.map_cons, List.sum_cons] at h
        simp only [occCountQA]
        omega
      simp only [bucketsWithQA, List.filter_cons]
      rw [if_pos (by simpa using hmem)]
      have h0 := occCountQA_zero_buckets bs q hrest
      simp only [bucketsWithQA] at h0
      simp [h0]

/-- C1: when `scores` is a well-formed `RankedQueryScores` mapping —
distinct query keys, each with at least one scored match —
`assignQueryToSubset` succeeds, every query is placed in the bucket
keyed by the alignment index of the first (top-ranked) entry of its
list and lies in exactly one bucket, and a query that has no scored
matches (absent from the mapping) lies in no bucket. -/
theorem assignQueryToSubset_top_rank (scores : Scores) (hxa : List HmmTuple)
    (iha : IndexMap)
    (hkeys : (scores.map Prod.fst).Nodup) (hne : ∀ p ∈ scores, p.2 ≠ []) :
    ∃ qa, assignQueryToSubset scores hxa iha = .ok qa ∧
      (∀ q s r, (q, s :: r) ∈ scores → memBucket qa s.1 q ∧ bucketsWithQA qa q = 1) ∧
      (∀ q, q ∉ scores.map Prod.fst → bucketsWithQA qa q = 0) := by
  obtain ⟨qa, hqa⟩ := assignLoop_ok_of_nonempty scores hne []
  refine ⟨qa, hqa, ?_, ?_⟩
  · intro q s r hmem
    constructor
    · rw [assignLoop_mem scores [] qa hqa s.1 q]
      exact Or.inr ⟨s, r, hmem, rfl⟩
    · have hocc := assignLoop_occ scores [] qa hqa q
      have hq : q ∈ scores.map Prod.fst := List.mem_map.mpr ⟨(q, s :: r), hmem, rfl⟩
      have hcount : (scores.map Prod.fst).count q = 1 := List.count_eq_one_of_mem hkeys hq
      apply occCountQA_one_bucket
      rw [hocc, hcount]
      simp [occCountQA]
  · intro q hq
    have hocc := assignLoop_occ scores [] qa hqa q
    have hcount : (scores.map Prod.fst).count q = 0 := List.count_eq_zero.mpr hq
    apply occCountQA_zero_buckets
    rw [hocc, hcount]
    simp [occCountQA]

/-- C4: contrary to the defensive behavior the specification requires,
a query key mapped to an empty ranked list makes `assignQueryToSubset`
fail with the `IndexError` of `score[0]` instead of being skipped: the
source reads `score[0][0]` without any emptiness guard. -/
theorem assignQueryToSubset_empty_score_error :
    assignQueryToSubset [("q1", [])] [] [] = .error .indexError := rfl

/-- A three-descriptor filesystem realising the worked example of the
specification: models `(1, 0)` with NSEQ 50 and subset size 200,
`(2, 0)` with NSEQ 80 and subset size 150, `(3, 0)` with NSEQ 10 and
subset size 5, and search results giving query `Q1` bit-scores 55 and
61 and query `Q2` bit-score 40. -/
def fsA : FileSys where
  hmmbuildFiles :=
    ["a/fa_1_0/hmmbuild.model.7", "b/fb_2_0/hmmbuild.model.7", "c/fc_3_0/hmmbuild.model.7"]
  fileHeader := fun p =>
    if p = "a/fa_1_0/hmmbuild.model.7" then [["HMMER3/f"], ["NSEQ", "50"]]
    else if p = "b/fb_2_0/hmmbuild.model.7" then [["HMMER3/f"], ["NSEQ", "80"]]
    else [["HMMER3/f"], ["NSEQ", "10"]]
  subsetAlnLines := fun q =>
    if q = "a/subset.aln.fasta" then some 400
    else if q = "b/subset.aln.fasta" then some 300
    else if q = "c/subset.aln.fasta" then some 10
    else none
  hmmsearchFiles := fun dir =>
    if dir = "a/fa_1_0" then ["a/fa_1_0/hmmsearch.results.0"]
    else if dir = "b/fb_2_0" then ["b/fb_2_0/hmmsearch.results.0"]
    else []
  searchContent := fun p =>
    if p = "a/fa_1_0/hmmsearch.results.0" then [("Q1", (0, 55)), ("Q2", (0, 40))]
    else if p = "b/fb_2_0/hmmsearch.results.0" then [("Q1", (0, 61))]
    else []

/-- The descriptor mapping that `obtainHMMs fsA 20 100` returns. -/
def ihA : IndexMap :=
  [("fa_1_0", ("a/fa_1_0", 1, 0, 50)), ("fb_2_0", ("b/fb_2_0", 2, 0, 80))]

/-- The ranked score mapping that `getHMMSearchResults fsA ihA`
returns. -/
def scoresA : Scores :=
  [("Q1", [(2, 0, 61), (1, 0, 55)]), ("Q2", [(1, 0, 40)])]

/-- A one-descriptor filesystem whose descriptor header has no NSEQ
line. -/
def fsB : FileSys where
  hmmbuildFiles := ["z/m_0_0/hmmbuild.model.0"]
  fileHeader := fun _ => [["LENG", "12"]]
  subsetAlnLines := fun _ => none
  hmmsearchFiles := fun _ => []
  searchContent := fun _ => []

theorem assignQueryToSubset_top_rank_witness :
    ∃ qa, assignQueryToSubset scoresA [] [] = .ok qa ∧
      (∀ q s r, (q, s :: r) ∈ scoresA → memBucket qa s.1 q ∧ bucketsWithQA qa q = 1) ∧
      (∀ q, q ∉ scoresA.map Prod.fst → bucketsWithQA qa q = 0) :=
  assignQueryToSubset_top_rank scoresA [] [] (by decide) (by decide)

theorem obtainHMMs_size_filter_witness :
    ([(1, 200, 0, 50), (2, 150, 0, 80)] : List HmmTuple).Perm
      ((fsA.hmmbuildFiles.filter
        (includedB fsA 20 100 fsA.hmmbuildFiles.length)).map (catalogEntry fsA)) :=
  obtainHMMs_size_filter fsA 20 100 [(1, 200, 0, 50), (2, 150, 0, 80)] ihA rfl

theorem getHMMSearchResults_ranked_witness :
    ([((2:Int), (0:Int), (61:ℚ)), (1, 0, 55)]).Pairwise (fun s t => t.2.2 ≤ s.2.2) ∧
    ∃ l₀, ("Q1", l₀) ∈ collectScores fsA ihA ∧
      [((2:Int), (0:Int), (61:ℚ)), (1, 0, 55)] = sortDesc (fun s => s.2.2) l₀ ∧
      ∀ c, keyFilter (fun s : Score => s.2.2) c [((2:Int), (0:Int), (61:ℚ)), (1, 0, 55)]
        = keyFilter (fun s : Score => s.2.2) c l₀ :=
  getHMMSearchResults_ranked fsA ihA "Q1" [(2, 0, 61), (1, 0, 55)] (by decide)

theorem obtainHMMs_dirname_pattern_witness :
    (∀ hx d, obtainHMMs fsA 20 100 = .ok (hx, d) →
      ∃ pre sa sh a b,
        splitStr '_' (basenameOf "a/fa_1_0/hmmbuild.model.7") = [pre, sa, sh] ∧
        strToInt sa = some a ∧ strToInt sh = some b ∧
        indexPairOf "a/fa_1_0/hmmbuild.model.7" = some (a, b) ∧
        catalogEntry fsA "a/fa_1_0/hmmbuild.model.7" ∈ hx ∧
        (catalogEntry fsA "a/fa_1_0/hmmbuild.model.7").1 = a ∧
        (catalogEntry fsA "a/fa_1_0/hmmbuild.model.7").2.2.1 = b) ∧
    (indexPairOf "a/fa_1_0/hmmbuild.model.7" = none →
      ∃ e, obtainHMMs fsA 20 100 = .error e) :=
  obtainHMMs_dirname_pattern fsA 20 100 "a/fa_1_0/hmmbuild.model.7" (by decide) (by decide)

theorem obtainHMMs_fatal_on_malformed_witness :
    ∃ e, obtainHMMs fsB 0 5 = .error e :=
  obtainHMMs_fatal_on_malformed fsB 0 5
    (Or.inl ⟨"z/m_0_0/hmmbuild.model.0", by decide, [("LENG", "12")], rfl, rfl⟩)

theorem obtainHMMs_catalog_sorted_witness :
    ([(1, 200, 0, 50), (2, 150, 0, 80)] : List HmmTuple).Pairwise
      (fun a b => b.2.1 ≤ a.2.1) ∧
    ∃ pre, obtainLoop fsA 20 100 fsA.hmmbuildFiles.length fsA.hmmbuildFiles [] []
        = .ok (pre, ihA) ∧
      ([(1, 200, 0, 50), (2, 150, 0, 80)] : List HmmTuple) = sortDesc (fun x => x.2.1) pre ∧
      ∀ c, keyFilter (fun x : HmmTuple => x.2.1) c [(1, 200, 0, 50), (2, 150, 0, 80)]
        = keyFilter (fun x : HmmTuple => x.2.1) c pre :=
  obtainHMMs_catalog_sorted fsA 20 100 [(1, 200, 0, 50), (2, 150, 0, 80)] ihA rfl
